import Mathlib

/-!
Shallow embedding of the expression calculator in `src/main.rs`: the term
model (`Operation`), the character-scan parser (`Expression.new`) and the
precedence-resolving evaluator (`Expression.evaluate`).  Numeric values are
modelled by the rationals `ℚ`; every arithmetic step exercised by the
statements below is exact in IEEE-754 `f64`, so `ℚ` computes the same
values the Rust code does on these inputs.
-/

/-- The error enum of `main.rs` (`Error`): `ToF64ParseError` carries the text
portion that failed `parse::<f64>()`, `ExtraParenthesis` carries the
accumulated text at the offending parenthesis.  Text is modelled as a list of
characters. -/
inductive Error where
  | ToF64ParseError : List Char → Error
  | ExtraParenthesis : List Char → Error
deriving DecidableEq, Repr

/-- The `Operation` enum of `main.rs`: one term of an expression, an operator
kind carrying its `f64` operand (modelled as `ℚ`). -/
inductive Operation where
  | Add : ℚ → Operation
  | Subtract : ℚ → Operation
  | Multiply : ℚ → Operation
  | Divide : ℚ → Operation
deriving DecidableEq, Repr

/-- `Operation::operate_with(&self, other)` from `main.rs`, with its
asymmetric operand order for `Subtract` and `Divide`. -/
def Operation.operate_with (o : Operation) (other : ℚ) : ℚ :=
  match o with
  | Operation.Add num => num + other
  | Operation.Subtract num => other - num
  | Operation.Multiply num => num * other
  | Operation.Divide num => other / num

/-- `Operation::is_multiply_or_divide` from `main.rs`. -/
def Operation.is_multiply_or_divide (o : Operation) : Bool :=
  match o with
  | Operation.Multiply _ => true
  | Operation.Divide _ => true
  | _ => false

/-- The `OperationKind` enum of `main.rs`: the "current determined operation"
of the scan. -/
inductive OperationKind where
  | Add
  | Subtract
  | Multiply
  | Divide
deriving DecidableEq, Repr

/-- The `Expression` struct of `main.rs`: an ordered sequence of operations. -/
structure Expression where
  operations : List Operation
deriving DecidableEq, Repr

/-- Body of `Expression::push_op`: the term appended for a given kind and
value. -/
def mkOp (kind : OperationKind) (num : ℚ) : Operation :=
  match kind with
  | OperationKind.Add => Operation.Add num
  | OperationKind.Subtract => Operation.Subtract num
  | OperationKind.Multiply => Operation.Multiply num
  | OperationKind.Divide => Operation.Divide num

/-- `Expression::push_op` from `main.rs`: appends one term to the sequence. -/
def pushOp (ops : List Operation) (kind : OperationKind) (num : ℚ) : List Operation :=
  ops ++ [mkOp kind num]

/-- The direct application of one term to the running result in
`Expression::evaluate`: `result += num` for `Add`, `result -= num` for
`Subtract`, and nothing for the other kinds (the two `_ => {}` arms). -/
def applyOp (r : ℚ) : Operation → ℚ
  | Operation.Add num => r + num
  | Operation.Subtract num => r - num
  | _ => r

/-- The loop of `Expression::evaluate` from position `i` onwards: `op` is
`temp_operations[i]`, the list argument holds the elements after `i`.  If the
next element is multiply-or-divide it is absorbed into `op` (and removed),
without advancing; otherwise `op` is applied directly to the result and the
scan advances. -/
def evalGo (r : ℚ) (op : Operation) : List Operation → ℚ
  | [] => applyOp r op
  | next :: rest =>
    if next.is_multiply_or_divide then
      match op with
      | Operation.Add num => evalGo r (Operation.Add (next.operate_with num)) rest
      | Operation.Subtract num => evalGo r (Operation.Subtract (next.operate_with num)) rest
      | _ => evalGo r op rest
    else
      evalGo (applyOp r op) next rest

/-- `Expression::evaluate` from `main.rs`: starts from result `0.0` and runs
the absorb-or-apply loop over the (copied) term sequence. -/
def Expression.evaluate (e : Expression) : ℚ :=
  match e.operations with
  | [] => 0
  | op :: rest => evalGo 0 op rest

/-- Value of a digit run, used to model `str::parse::<f64>` on decimal
literals. -/
def digitsToNat (l : List Char) : Nat :=
  l.foldl (fun acc c => 10 * acc + (c.toNat - 48)) 0

/-- Unsigned part of the decimal-literal grammar: digits, optionally followed
by a point and further digits, with at least one digit overall. -/
def decCore (l : List Char) : Option ℚ :=
  let intPart := l.takeWhile Char.isDigit
  match l.dropWhile Char.isDigit with
  | [] => if intPart = [] then none else some ((digitsToNat intPart : ℚ))
  | c :: fracPart =>
    if c = '.' ∧ fracPart.all Char.isDigit ∧ (intPart ≠ [] ∨ fracPart ≠ []) then
      some ((digitsToNat intPart : ℚ) + (digitsToNat fracPart : ℚ) / (10 : ℚ) ^ fracPart.length)
    else
      none

/-- Model of Rust's `str::parse::<f64>()` as used by `main.rs`, on the
decimal-literal fragment the program feeds it: an optional sign followed by
digits with an optional fractional part.  (Exponent, infinity and NaN forms
of the Rust parser are not exercised by this program's grammar of digit/dot
buffers and are not modelled.)  Returns `none` exactly where the Rust call
returns `Err`. -/
def parseF64? (l : List Char) : Option ℚ :=
  match l with
  | [] => none
  | c :: rest =>
    if c = '+' then decCore rest
    else if c = '-' then (decCore rest).map (fun q => -q)
    else decCore (c :: rest)

/-- `str::trim` from the top of `Expression::new`: drops leading and trailing
whitespace. -/
def trimWs (l : List Char) : List Char :=
  ((l.dropWhile Char.isWhitespace).reverse.dropWhile Char.isWhitespace).reverse

/-- `text.trim().replace(" ", "")` from `Expression::new`: the `pure_text`
the scan runs over. -/
def pureText (l : List Char) : List Char :=
  (trimWs l).filter (fun c => c != ' ')

/-- The scanner state of `Expression::new`: the expression built so far, the
`current_determined_operation`, the `accumulated_text` buffer and the
`inside_parenthesis` flag. -/
structure ScanState where
  expression : List Operation
  kind : OperationKind
  buf : List Char
  inside : Bool
deriving DecidableEq, Repr

/-- Is the character one of the four operator characters of the scan. -/
def isOpChar (c : Char) : Bool :=
  c = '+' || c = '-' || c = '*' || c = '/'

/-- The operation kind selected by an operator character in the second match
of `Expression::new`. -/
def kindOf (c : Char) : OperationKind :=
  if c = '+' then OperationKind.Add
  else if c = '-' then OperationKind.Subtract
  else if c = '*' then OperationKind.Multiply
  else OperationKind.Divide

/-- The end-of-input flush of `Expression::new` (the `i + 1 == chars_len`
block): if the buffer is non-empty it must parse as a number, which is pushed
with the current kind; the `inside_parenthesis` flag is not consulted. -/
def endFlush (st : ScanState) : Except Error (List Operation) :=
  if st.buf = [] then Except.ok st.expression
  else
    match parseF64? st.buf with
    | some num => Except.ok (pushOp st.expression st.kind num)
    | none => Except.error (Error.ToF64ParseError st.buf)

/-- The character loop of `Expression::new`.  `inner` is the recursive parse
used for a closed parenthesis group (Rust's `Expression::new(&accumulated_text)`).
Each step combines the two `match char` blocks of the Rust loop; after the
last character the end-of-input flush runs (in Rust it is triggered by the
trailing empty chunk that `split("")` appends, which itself changes nothing). -/
def scanGo (inner : List Char → Except Error (List Operation)) :
    ScanState → List Char → Except Error (List Operation)
  | st, [] => endFlush st
  | st, c :: cs =>
    if isOpChar c then
      if st.inside then
        scanGo inner { st with buf := st.buf ++ [c] } cs
      else if st.buf = [] then
        scanGo inner { st with kind := kindOf c, buf := [] } cs
      else
        match parseF64? st.buf with
        | some num =>
          scanGo inner
            { st with expression := pushOp st.expression st.kind num,
                      kind := kindOf c, buf := [] } cs
        | none => Except.error (Error.ToF64ParseError st.buf)
    else if c = '(' then
      if st.inside then Except.error (Error.ExtraParenthesis st.buf)
      else scanGo inner { st with inside := true } cs
    else if c = ')' then
      if st.inside then
        match inner st.buf with
        | Except.ok innerOps =>
          scanGo inner
            { st with inside := false,
                      expression := pushOp st.expression st.kind
                        (Expression.evaluate ⟨innerOps⟩),
                      buf := [] } cs
        | Except.error e => Except.error e
      else Except.error (Error.ExtraParenthesis st.buf)
    else
      scanGo inner { st with buf := st.buf ++ [c] } cs

/-- `Expression::new` with an explicit recursion budget: each closed
parenthesis group re-parses its captured buffer with one unit less.  The
budget-exhausted value is never reached from `Expression.new` (nesting is
rejected beyond one level, and each recursion strictly shrinks the text), it
only makes the recursion structural. -/
def Expression.newGo : Nat → List Char → Except Error (List Operation)
  | 0, _ => Except.error (Error.ExtraParenthesis [])
  | fuel + 1, text => scanGo (Expression.newGo fuel) ⟨[], OperationKind.Add, [], false⟩ (pureText text)

/-- `Expression::new` from `main.rs`: strip spaces, scan, wrap the resulting
term sequence. -/
def Expression.new (text : List Char) : Except Error Expression :=
  match Expression.newGo (text.length + 1) text with
  | Except.ok ops => Except.ok ⟨ops⟩
  | Except.error e => Except.error e

/-- Entry point `parse` of the spec: `Expression::new` on the characters of a
string. -/
def parse (s : String) : Except Error Expression :=
  Expression.new s.data

/-- Helper for stating evaluator lemmas: run the evaluate loop on the suffix
of terms not yet reached, with the running result so far.  `evalList r l`
is the loop with `l` the terms from position `i` on. -/
def evalList (r : ℚ) : List Operation → ℚ
  | [] => r
  | op :: rest => evalGo r op rest

/-- One iteration of the `while i < temp_operations.len()` loop of
`Expression::evaluate`, on the literal loop state (running result, index `i`,
current vector).  `none` means the loop guard fails and the loop exits. -/
structure EvalState where
  result : ℚ
  i : Nat
  ops : List Operation
deriving DecidableEq, Repr

/-- The in-place update `temp_operations[i] = ...` of the absorb branch of
`Expression::evaluate`: replace the term at `i` by the same kind carrying
`next.operate_with` of its operand, the `_ => {}` arm leaving the vector
unchanged. -/
def replaceOp (ops : List Operation) (i : Nat) (operation next : Operation) : List Operation :=
  match operation with
  | Operation.Add num => ops.set i (Operation.Add (next.operate_with num))
  | Operation.Subtract num => ops.set i (Operation.Subtract (next.operate_with num))
  | _ => ops

/-- One step of the evaluate loop: either absorbs the multiply-or-divide term
at `i + 1` into position `i` and removes it (index unchanged), or applies the
term at `i` to the result and advances the index. -/
def evalStep (st : EvalState) : Option EvalState :=
  if h : st.i < st.ops.length then
    if h2 : st.i + 1 < st.ops.length then
      if (st.ops.get ⟨st.i + 1, h2⟩).is_multiply_or_divide then
        some { result := st.result, i := st.i,
               ops := (replaceOp st.ops st.i (st.ops.get ⟨st.i, h⟩)
                 (st.ops.get ⟨st.i + 1, h2⟩)).eraseIdx (st.i + 1) }
      else
        some { result := applyOp st.result (st.ops.get ⟨st.i, h⟩), i := st.i + 1, ops := st.ops }
    else
      some { result := applyOp st.result (st.ops.get ⟨st.i, h⟩), i := st.i + 1, ops := st.ops }
  else
    none

/-- Termination measure for the evaluate loop: each step either removes one
term (measure drops by two) or advances the index (measure drops by one). -/
def evalMeasure (st : EvalState) : Nat :=
  2 * st.ops.length - st.i

/-- Iterate `evalStep` at most `fuel` times, stopping when the loop guard
fails. -/
def runEval : Nat → EvalState → EvalState
  | 0, st => st
  | fuel + 1, st =>
    match evalStep st with
    | none => st
    | some next => runEval fuel next

/-- Instrumentation of the evaluate loop: does a multiply-or-divide term ever
reach the direct-apply treatment (one of the two arms that add to or subtract
from the running result, i.e. the advance branch or the last-element branch)?
Mirrors the control flow of `evalGo` exactly. -/
def reachGo (op : Operation) : List Operation → Bool
  | [] => op.is_multiply_or_divide
  | next :: rest =>
    if next.is_multiply_or_divide then
      match op with
      | Operation.Add num => reachGo (Operation.Add (next.operate_with num)) rest
      | Operation.Subtract num => reachGo (Operation.Subtract (next.operate_with num)) rest
      | _ => reachGo op rest
    else
      op.is_multiply_or_divide || reachGo next rest

/-- Does some multiply-or-divide term reach the direct-apply branch while
evaluating `e`? -/
def Expression.reachesDirectMD (e : Expression) : Bool :=
  match e.operations with
  | [] => false
  | op :: rest => reachGo op rest

/-- Is the leading term of the expression a multiply-or-divide term? -/
def Expression.headIsMD (e : Expression) : Bool :=
  match e.operations with
  | [] => false
  | op :: _ => op.is_multiply_or_divide

/-- Outcome classes of the parse scan, following the spec's error taxonomy:
success, a number-conversion failure, or an unbalanced parenthesis. -/
inductive ScanOutcome where
  | ok
  | numErr
  | parenErr
deriving DecidableEq, Repr

/-- The outcome class of a parse result. -/
def outcomeOf : Except Error (List Operation) → ScanOutcome
  | Except.ok _ => ScanOutcome.ok
  | Except.error (Error.ToF64ParseError _) => ScanOutcome.numErr
  | Except.error (Error.ExtraParenthesis _) => ScanOutcome.parenErr

/-- The scan of the spec (section 4.1), reduced to what decides its outcome:
the nesting flag and the literal buffer.  An unbalanced-parenthesis outcome
arises exactly at an opening parenthesis seen while the flag is set and at a
closing parenthesis seen while the flag is clear; a number outcome arises at
the flush points; a closing parenthesis recursively scans the captured
buffer (`innerScan`). -/
def specGo (innerScan : List Char → ScanOutcome) :
    Bool → List Char → List Char → ScanOutcome
  | _, buf, [] =>
    if buf = [] then ScanOutcome.ok
    else
      match parseF64? buf with
      | some _ => ScanOutcome.ok
      | none => ScanOutcome.numErr
  | flag, buf, c :: cs =>
    if isOpChar c then
      if flag then specGo innerScan flag (buf ++ [c]) cs
      else if buf = [] then specGo innerScan flag [] cs
      else
        match parseF64? buf with
        | some _ => specGo innerScan flag [] cs
        | none => ScanOutcome.numErr
    else if c = '(' then
      if flag then ScanOutcome.parenErr
      else specGo innerScan true buf cs
    else if c = ')' then
      if flag then
        match innerScan buf with
        | ScanOutcome.ok => specGo innerScan false [] cs
        | ScanOutcome.numErr => ScanOutcome.numErr
        | ScanOutcome.parenErr => ScanOutcome.parenErr
      else ScanOutcome.parenErr
    else
      specGo innerScan flag (buf ++ [c]) cs

/-- The spec's scan outcome for a whole input, with the same recursion budget
shape as `Expression.newGo`. -/
def specScan : Nat → List Char → ScanOutcome
  | 0, _ => ScanOutcome.parenErr
  | fuel + 1, text => specGo (specScan fuel) false [] (pureText text)

/-- Rendering of an operator-literal chain: each pair contributes its
operator character followed by its literal characters. -/
def renderOps : List (Char × List Char) → List Char
  | [] => []
  | p :: ps => p.1 :: (p.2 ++ renderOps ps)

/-- A decimal number literal: only digit or point characters, and accepted by
the number parser. -/
def GoodLit (l : List Char) : Prop :=
  (∀ c ∈ l, c.isDigit = true ∨ c = '.') ∧ (parseF64? l).isSome

/-- The numeric value of a literal (zero if it does not parse; every literal
of interest parses). -/
def litVal (l : List Char) : ℚ :=
  (parseF64? l).getD 0

/-- One step of the left-to-right signed sum: add the literal after a plus,
subtract it after a minus. -/
def signedStep (acc : ℚ) (p : Char × List Char) : ℚ :=
  if p.1 = '-' then acc - litVal p.2 else acc + litVal p.2

/-- The left-to-right signed sum of the literals of a chain, starting from
zero, the leading literal counted positively. -/
def signedSum (first : List Char) (ps : List (Char × List Char)) : ℚ :=
  List.foldl signedStep 0 ((⟨'+', first⟩ : Char × List Char) :: ps)

/-- The terms a plus-minus chain parses to, after the leading one. -/
def chainOps (ps : List (Char × List Char)) : List Operation :=
  ps.map (fun p => mkOp (kindOf p.1) (litVal p.2))

-- Decidability of results stated over `Except`, for evaluating the theorems
-- below on concrete inputs.
deriving instance DecidableEq for Except

/-- Decidability of the literal predicate, for concrete instances. -/
instance (l : List Char) : Decidable (GoodLit l) := by
  unfold GoodLit; infer_instance

theorem evalList_zero (l : List Operation) : evalList 0 l = Expression.evaluate ⟨l⟩ := by
  cases l <;> rfl

theorem reachGo_eq_head (l : List Operation) :
    ∀ op : Operation, reachGo op l = op.is_multiply_or_divide := by
  induction l with
  | nil => intro op; rfl
  | cons next rest ih =>
    intro op
    by_cases h : next.is_multiply_or_divide = true
    · cases op <;> simp [reachGo, h, ih, Operation.is_multiply_or_divide]
    · simp only [Bool.not_eq_true] at h
      simp [reachGo, h, ih]

theorem applyOp_md (r : ℚ) (op : Operation) (h : op.is_multiply_or_divide = true) :
    applyOp r op = r := by
  cases op <;> simp_all [Operation.is_multiply_or_divide, applyOp]

theorem evalGo_md_head (l : List Operation) :
    ∀ (r : ℚ) (op : Operation), op.is_multiply_or_divide = true →
      evalGo r op l = evalList r (l.dropWhile Operation.is_multiply_or_divide) := by
  induction l with
  | nil =>
    intro r op h
    simp [evalGo, evalList, applyOp_md r op h]
  | cons next rest ih =>
    intro r op h
    by_cases hn : next.is_multiply_or_divide = true
    · have : evalGo r op (next :: rest) = evalGo r op rest := by
        cases op <;> simp_all [Operation.is_multiply_or_divide, evalGo]
      rw [this, ih r op h, List.dropWhile_cons, if_pos hn]
    · simp only [Bool.not_eq_true] at hn
      simp [evalGo, hn, applyOp_md r op h, List.dropWhile_cons, evalList]

theorem evaluate_dropWhile_md (e : Expression) :
    e.evaluate = Expression.evaluate ⟨e.operations.dropWhile Operation.is_multiply_or_divide⟩ := by
  cases e with
  | mk ops =>
    cases ops with
    | nil => rfl
    | cons op rest =>
      by_cases h : op.is_multiply_or_divide = true
      · show evalGo 0 op rest = _
        rw [evalGo_md_head rest 0 op h, List.dropWhile_cons, if_pos h, evalList_zero]
      · simp only [Bool.not_eq_true] at h
        show evalGo 0 op rest = _
        rw [List.dropWhile_cons, if_neg (by simp [h])]
        rfl

/-- C1: evaluating the parse of `"4 + 5 + 9 + 3 * 2 / 3"` returns exactly the
value of `4 + 5 + 9 + 3 * 2 / 3` computed with standard arithmetic and
precedence (multiplication and division bind tighter, left to right within a
level), namely `20`.  Every step is exact in `f64`, so the rational value
is the `f64` value. -/
theorem C1_operator_precedence :
    (parse "4 + 5 + 9 + 3 * 2 / 3").map Expression.evaluate
      = Except.ok (4 + 5 + 9 + 3 * 2 / 3 : ℚ)
    ∧ (4 + 5 + 9 + 3 * 2 / 3 : ℚ) = 20 := by
  constructor
  · with_unfolding_all decide
  · with_unfolding_all decide

/-- C2: evaluating the parse of `"3 + (3 + 5) * 6 + 4 - 3 / 2"` returns the
value of `3 + (3 + 5) * 6 + 4 - 3 / 2` (that is `53.5`); the parenthesized
group is recursively parsed and evaluated and its numeric result `8` becomes
the single operand of one `Add` term of the enclosing expression. -/
theorem C2_parenthesis_recursion :
    parse "3 + (3 + 5) * 6 + 4 - 3 / 2"
      = Except.ok ⟨[Operation.Add 3, Operation.Add 8, Operation.Multiply 6,
          Operation.Add 4, Operation.Subtract 3, Operation.Divide 2]⟩
    ∧ (parse "3 + (3 + 5) * 6 + 4 - 3 / 2").map Expression.evaluate
      = Except.ok (3 + (3 + 5) * 6 + 4 - 3 / 2 : ℚ) := by
  constructor
  · with_unfolding_all decide
  · with_unfolding_all decide

/-- C4: for every operand `num` and argument `other`, `operate_with` computes
exactly `num + other` for `Add`, `other - num` for `Subtract`,
`num * other` for `Multiply` and `other / num` for `Divide` (note the
asymmetric operand order for `Subtract` and `Divide`). -/
theorem C4_operate_with_table :
    ∀ num other : ℚ,
      (Operation.Add num).operate_with other = num + other
      ∧ (Operation.Subtract num).operate_with other = other - num
      ∧ (Operation.Multiply num).operate_with other = num * other
      ∧ (Operation.Divide num).operate_with other = other / num :=
  fun _ _ => ⟨rfl, rfl, rfl, rfl⟩

/-- C6 counterexample: `"(5"` has an opening parenthesis with no matching
close, yet parsing does not fail with `ExtraParenthesis`; it succeeds,
returning the single term `Add 5`. -/
theorem C6_unmatched_open_counterexample :
    parse "(5" = Except.ok ⟨[Operation.Add 5]⟩ := by
  with_unfolding_all decide

/-- C6 amended: an unmatched opening parenthesis is not detected as an
error.  The end-of-input flush never consults the nesting flag, so the
pending buffer is flushed as a numeric literal: parsing fails only when that
buffer does not parse as a number, and then with the number-parse error (for
example `"(1+2"` gives `ToF64ParseError "1+2"`), never with
`ExtraParenthesis`. -/
theorem C6_end_flush_ignores_flag :
    (∀ e k b, endFlush ⟨e, k, b, true⟩ = endFlush ⟨e, k, b, false⟩)
    ∧ parse "(1+2" = Except.error (Error.ToF64ParseError ['1', '+', '2']) := by
  refine ⟨fun e k b => rfl, ?_⟩
  with_unfolding_all decide

/-- C7 counterexample: the successful parse of `"*5"` yields the single term
`Multiply 5`, and evaluating that expression does send a multiply-or-divide
term into the direct-apply branch of the loop. -/
theorem C7_muldiv_reaches_counterexample :
    parse "*5" = Except.ok ⟨[Operation.Multiply 5]⟩
    ∧ Expression.reachesDirectMD ⟨[Operation.Multiply 5]⟩ = true := by
  constructor
  · with_unfolding_all decide
  · decide

/-- C7 amended: a multiply-or-divide term reaches the direct-apply branch of
`evaluate` exactly when the expression's leading term is multiply-or-divide,
which a successful parse can produce (for example `"*5"`).  Such terms
contribute nothing to the result: evaluating any expression equals
evaluating it with its leading multiply-or-divide terms dropped, and in
particular `⟨[Multiply 5]⟩` evaluates to `0`. -/
theorem C7_leading_muldiv :
    (∀ e : Expression, e.reachesDirectMD = e.headIsMD)
    ∧ (∀ e : Expression,
        e.evaluate = Expression.evaluate ⟨e.operations.dropWhile Operation.is_multiply_or_divide⟩)
    ∧ Expression.evaluate ⟨[Operation.Multiply 5]⟩ = 0 := by
  refine ⟨?_, evaluate_dropWhile_md, by decide⟩
  intro e
  cases e with
  | mk ops => cases ops with
    | nil => rfl
    | cons op rest =>
      show reachGo op rest = _
      rw [reachGo_eq_head]
      rfl

/-- C8: a leading operator with no prior number is accepted silently:
`"-5"` parses to the single term `Subtract 5`, and evaluating applies the
subtraction to the implicit zero accumulator, returning `0 - 5 = -5`. -/
theorem C8_leading_minus :
    parse "-5" = Except.ok ⟨[Operation.Subtract 5]⟩
    ∧ Expression.evaluate ⟨[Operation.Subtract 5]⟩ = 0 - 5 := by
  constructor
  · with_unfolding_all decide
  · with_unfolding_all decide

theorem mem_trimWs {c : Char} {l : List Char} (h : c ∈ trimWs l) : c ∈ l := by
  unfold trimWs at h
  rw [List.mem_reverse] at h
  have h1 := (List.dropWhile_sublist (l := (l.dropWhile Char.isWhitespace).reverse)
    (p := Char.isWhitespace)).mem h
  rw [List.mem_reverse] at h1
  exact (List.dropWhile_sublist (l := l) (p := Char.isWhitespace)).mem h1

theorem pureText_all_space {l : List Char} (h : ∀ c ∈ l, c = ' ') : pureText l = [] := by
  unfold pureText
  rw [List.filter_eq_nil_iff]
  intro a ha
  have := h a (mem_trimWs ha)
  simp [this]

/-- C10: parsing an input that is empty or consists only of spaces succeeds
with an empty term sequence, and evaluating the empty expression returns
zero. -/
theorem C10_blank_input :
    (∀ s : String, (∀ c ∈ s.data, c = ' ') → parse s = Except.ok ⟨[]⟩)
    ∧ Expression.evaluate ⟨[]⟩ = 0 := by
  refine ⟨?_, rfl⟩
  intro s h
  show Expression.new s.data = _
  unfold Expression.new
  rw [Expression.newGo, pureText_all_space h]
  rfl

/-- C10 witness: the two-space input satisfies the hypothesis and parses to
the empty expression. -/
theorem C10_blank_input_witness :
    (∀ c ∈ "  ".data, c = ' ') ∧ parse "  " = Except.ok ⟨[]⟩ :=
  ⟨by decide, C10_blank_input.1 "  " (by decide)⟩

theorem litChar_not_special {c : Char} (h : c.isDigit = true ∨ c = '.') :
    isOpChar c = false ∧ c ≠ '(' ∧ c ≠ ')' := by
  rcases h with h | h
  · refine ⟨?_, ?_, ?_⟩
    · by_contra hb
      simp only [Bool.not_eq_false] at hb
      simp only [isOpChar, Bool.or_eq_true, decide_eq_true_eq] at hb
      rcases hb with ((h1 | h1) | h1) | h1 <;> subst h1 <;> simp at h
    · intro h1; subst h1; simp at h
    · intro h1; subst h1; simp at h
  · subst h; exact ⟨rfl, by decide, by decide⟩

theorem scanGo_lit (inner : List Char → Except Error (List Operation)) (lit : List Char) :
    ∀ (st : ScanState) (rest : List Char),
      (∀ c ∈ lit, c.isDigit = true ∨ c = '.') →
      scanGo inner st (lit ++ rest) = scanGo inner { st with buf := st.buf ++ lit } rest := by
  induction lit with
  | nil => intro st rest _; simp
  | cons c cs ih =>
    intro st rest h
    have hc := litChar_not_special (h c (by simp))
    show scanGo inner st (c :: (cs ++ rest)) = _
    simp only [scanGo, hc.1, Bool.false_eq_true, if_false, hc.2.1, hc.2.2, if_neg]
    rw [ih { st with buf := st.buf ++ [c] } rest (fun d hd => h d (by simp [hd]))]
    simp [List.append_assoc]

theorem parseF64_nil : parseF64? [] = none := rfl

theorem scanGo_chain (inner : List Char → Except Error (List Operation))
    (ps : List (Char × List Char)) :
    ∀ (st : ScanState) (w : ℚ),
      st.inside = false →
      parseF64? st.buf = some w →
      (∀ p ∈ ps, (p.1 = '+' ∨ p.1 = '-') ∧ GoodLit p.2) →
      scanGo inner st (renderOps ps)
        = Except.ok (pushOp st.expression st.kind w ++ chainOps ps) := by
  induction ps with
  | nil =>
    intro st w hin hw hps
    have hb : st.buf ≠ [] := by
      intro hnil; rw [hnil, parseF64_nil] at hw; exact Option.noConfusion hw
    show endFlush st = _
    unfold endFlush
    rw [if_neg hb, hw]
    simp [chainOps]
  | cons p ps ih =>
    obtain ⟨c, l⟩ := p
    intro st w hin hw hps
    obtain ⟨hop, hgood⟩ := hps ⟨c, l⟩ (by simp)
    obtain ⟨v, hv⟩ := Option.isSome_iff_exists.mp hgood.2
    have hb : st.buf ≠ [] := by
      intro hnil; rw [hnil, parseF64_nil] at hw; exact Option.noConfusion hw
    show scanGo inner st (c :: (l ++ renderOps ps)) = _
    have hlit : ∀ d ∈ l, d.isDigit = true ∨ d = '.' := hgood.1
    rcases hop with rfl | rfl <;>
    · simp only [scanGo, isOpChar, hin, Bool.false_eq_true, if_false, if_neg hb, hw]
      norm_num
      rw [scanGo_lit inner l _ _ hlit]
      rw [ih _ v rfl hv (fun q hq => hps q (by simp [hq]))]
      simp [pushOp, chainOps, litVal, hv, List.append_assoc]

theorem evalGo_no_md (l : List Operation) :
    ∀ (r : ℚ) (op : Operation), op.is_multiply_or_divide = false →
      (∀ o ∈ l, o.is_multiply_or_divide = false) →
      evalGo r op l = l.foldl applyOp (applyOp r op) := by
  induction l with
  | nil => intro r op _ _; rfl
  | cons next rest ih =>
    intro r op h hl
    have hn := hl next (by simp)
    simp only [evalGo, hn, Bool.false_eq_true, if_false]
    rw [ih (applyOp r op) next hn (fun o ho => hl o (by simp [ho]))]
    rfl

theorem chainOps_no_md (ps : List (Char × List Char))
    (h : ∀ p ∈ ps, p.1 = '+' ∨ p.1 = '-') :
    ∀ o ∈ chainOps ps, o.is_multiply_or_divide = false := by
  intro o ho
  simp only [chainOps, List.mem_map] at ho
  obtain ⟨p, hp, rfl⟩ := ho
  rcases h p hp with h1 | h1 <;>
    simp [mkOp, kindOf, h1, Operation.is_multiply_or_divide]

theorem foldl_chain (ps : List (Char × List Char)) :
    ∀ acc : ℚ, (∀ p ∈ ps, p.1 = '+' ∨ p.1 = '-') →
      (chainOps ps).foldl applyOp acc = ps.foldl signedStep acc := by
  induction ps with
  | nil => intro acc _; rfl
  | cons p ps ih =>
    intro acc h
    have hp := h p (by simp)
    have hstep : applyOp acc (mkOp (kindOf p.1) (litVal p.2)) = signedStep acc p := by
      rcases hp with h1 | h1 <;> simp [kindOf, mkOp, applyOp, signedStep, h1]
    show (mkOp (kindOf p.1) (litVal p.2) :: chainOps ps).foldl applyOp acc = _
    simp only [List.foldl_cons]
    rw [hstep, ih (signedStep acc p) (fun q hq => h q (by simp [hq]))]

theorem new_map_eval {text : List Char} {ops : List Operation}
    (h : Expression.newGo (text.length + 1) text = Except.ok ops) :
    (Expression.new text).map Expression.evaluate
      = Except.ok (Expression.evaluate ⟨ops⟩) := by
  unfold Expression.new
  rw [h]
  rfl

/-- C3: for every input whose space-stripped text is a chain of decimal
number literals joined by `+` and `-` characters, parsing succeeds and
evaluating the result is the left-to-right signed sum of the literals
starting from zero; in particular `"3 + 5"` and `"3+5"` both evaluate
to `8`. -/
theorem C3_plus_minus_chains :
    (∀ (s : String) (first : List Char) (ps : List (Char × List Char)),
        pureText s.data = first ++ renderOps ps →
        GoodLit first →
        (∀ p ∈ ps, (p.1 = '+' ∨ p.1 = '-') ∧ GoodLit p.2) →
        (parse s).map Expression.evaluate = Except.ok (signedSum first ps))
    ∧ (parse "3 + 5").map Expression.evaluate = Except.ok (8 : ℚ)
    ∧ (parse "3+5").map Expression.evaluate = Except.ok (8 : ℚ) := by
  refine ⟨?_, by with_unfolding_all decide, by with_unfolding_all decide⟩
  intro s first ps hrender hfirst hps
  obtain ⟨v, hv⟩ := Option.isSome_iff_exists.mp hfirst.2
  have hgo : Expression.newGo (s.data.length + 1) s.data
      = Except.ok (Operation.Add v :: chainOps ps) := by
    rw [Expression.newGo, hrender]
    rw [scanGo_lit _ first ⟨[], OperationKind.Add, [], false⟩ (renderOps ps) hfirst.1]
    rw [scanGo_chain _ ps _ v rfl hv hps]
    rfl
  show (Expression.new s.data).map Expression.evaluate = _
  rw [new_map_eval hgo]
  congr 1
  show evalGo 0 (Operation.Add v) (chainOps ps) = _
  rw [evalGo_no_md (chainOps ps) 0 (Operation.Add v) rfl
    (chainOps_no_md ps (fun p hp => (hps p hp).1))]
  rw [foldl_chain ps (applyOp 0 (Operation.Add v)) (fun p hp => (hps p hp).1)]
  show _ = List.foldl signedStep (signedStep 0 (⟨'+', first⟩ : Char × List Char)) ps
  have hacc : signedStep 0 (⟨'+', first⟩ : Char × List Char) = applyOp 0 (Operation.Add v) := by
    simp [signedStep, applyOp, litVal, hv]
  rw [hacc]

/-- C3 witness: the chain hypotheses hold for `"3 + 5"` with literals `3`
and `+5`, and the theorem computes its signed sum. -/
theorem C3_plus_minus_chains_witness :
    (pureText "3 + 5".data = ['3'] ++ renderOps [(⟨'+', ['5']⟩ : Char × List Char)]
      ∧ GoodLit ['3']
      ∧ (∀ p ∈ [(⟨'+', ['5']⟩ : Char × List Char)], (p.1 = '+' ∨ p.1 = '-') ∧ GoodLit p.2))
    ∧ (parse "3 + 5").map Expression.evaluate
      = Except.ok (signedSum ['3'] [(⟨'+', ['5']⟩ : Char × List Char)]) :=
  ⟨⟨by decide, by decide, by decide⟩,
    C3_plus_minus_chains.1 "3 + 5" ['3'] [(⟨'+', ['5']⟩ : Char × List Char)]
      (by decide) (by decide) (by decide)⟩

theorem outcomeOf_parenErr (r : Except Error (List Operation)) :
    outcomeOf r = ScanOutcome.parenErr
      ↔ ∃ t, r = Except.error (Error.ExtraParenthesis t) := by
  cases r with
  | ok ops => simp [outcomeOf]
  | error e =>
    cases e with
    | ToF64ParseError t => simp [outcomeOf]
    | ExtraParenthesis t => simp [outcomeOf]

theorem scanGo_outcome (inner : List Char → Except Error (List Operation))
    (innerScan : List Char → ScanOutcome)
    (hinner : ∀ b, outcomeOf (inner b) = innerScan b) (chars : List Char) :
    ∀ st : ScanState,
      outcomeOf (scanGo inner st chars) = specGo innerScan st.inside st.buf chars := by
  induction chars with
  | nil =>
    intro st
    show outcomeOf (endFlush st) = _
    unfold endFlush specGo
    by_cases hb : st.buf = []
    · simp [hb, outcomeOf]
    · rw [if_neg hb, if_neg hb]
      cases hp : parseF64? st.buf <;> simp [outcomeOf]
  | cons c cs ih =>
    intro st
    show outcomeOf (scanGo inner st (c :: cs)) = specGo innerScan st.inside st.buf (c :: cs)
    simp only [scanGo, specGo]
    by_cases hOp : isOpChar c = true
    · simp only [hOp, if_true]
      by_cases hin : st.inside
      · simp [hin, ih]
      · simp only [hin, Bool.false_eq_true, if_false]
        by_cases hb : st.buf = []
        · have hin2 : st.inside = false := by simpa using hin
          simp only [hb, if_true]
          simpa [hin2] using ih { st with kind := kindOf c, buf := [] }
        · simp only [hb, if_false, if_neg hb]
          cases hp : parseF64? st.buf with
          | some n => simp [hp, ih]
          | none => simp [hp, outcomeOf]
    · simp only [hOp, Bool.false_eq_true, if_false]
      by_cases hpar : c = '('
      · simp only [hpar, if_true]
        by_cases hin : st.inside
        · simp [hin, outcomeOf]
        · simpa [hin] using ih { st with inside := true }
      · simp only [hpar, if_false, if_neg hpar]
        by_cases hcl : c = ')'
        · simp only [hcl, if_true]
          by_cases hin : st.inside
          · simp only [hin, if_true]
            cases hi : inner st.buf with
            | ok innerOps =>
              have h2 : innerScan st.buf = ScanOutcome.ok := by
                rw [← hinner, hi]; rfl
              simp [h2, ih]
            | error e =>
              cases e with
              | ToF64ParseError t =>
                have h2 : innerScan st.buf = ScanOutcome.numErr := by
                  rw [← hinner, hi]; rfl
                simp [h2, outcomeOf]
              | ExtraParenthesis t =>
                have h2 : innerScan st.buf = ScanOutcome.parenErr := by
                  rw [← hinner, hi]; rfl
                simp [h2, outcomeOf]
          · simp [hin, outcomeOf]
        · simp only [hcl, if_false, if_neg hcl]
          simp [ih]

theorem newGo_outcome : ∀ (fuel : Nat) (text : List Char),
    outcomeOf (Expression.newGo fuel text) = specScan fuel text := by
  intro fuel
  induction fuel with
  | zero => intro text; rfl
  | succ f ih =>
    intro text
    exact scanGo_outcome (Expression.newGo f) (specScan f) ih (pureText text)
      ⟨[], OperationKind.Add, [], false⟩

theorem new_error_iff (text : List Char) (e : Error) :
    Expression.new text = Except.error e
      ↔ Expression.newGo (text.length + 1) text = Except.error e := by
  unfold Expression.new
  cases hgo : Expression.newGo (text.length + 1) text <;> simp

/-- C5: parsing fails with `ExtraParenthesis` (the `UnbalancedParenthesis`
of the spec) exactly when the scan meets an opening parenthesis while the
nesting flag is already set or a closing parenthesis while it is clear
(`specScan`, the outcome machine transcribed from the spec's scan, returns
`parenErr`); in particular `"(1+(2+3))"` and `"1+2)"` both fail that way,
each carrying the buffer accumulated so far. -/
theorem C5_unbalanced_parenthesis :
    (∀ s : String,
        (∃ t, parse s = Except.error (Error.ExtraParenthesis t))
          ↔ specScan (s.data.length + 1) s.data = ScanOutcome.parenErr)
    ∧ parse "(1+(2+3))" = Except.error (Error.ExtraParenthesis ['1', '+'])
    ∧ parse "1+2)" = Except.error (Error.ExtraParenthesis ['2']) := by
  refine ⟨?_, by with_unfolding_all decide, by with_unfolding_all decide⟩
  intro s
  rw [← newGo_outcome, outcomeOf_parenErr]
  exact exists_congr (fun t => new_error_iff s.data (Error.ExtraParenthesis t))

/-- C5 witness: at `"1+2)"` the spec-side machine reports a parenthesis
outcome and the theorem transports it to the parser. -/
theorem C5_unbalanced_parenthesis_witness :
    specScan ("1+2)".data.length + 1) "1+2)".data = ScanOutcome.parenErr
    ∧ (∃ t, parse "1+2)" = Except.error (Error.ExtraParenthesis t)) :=
  ⟨by decide, (C5_unbalanced_parenthesis.1 "1+2)").mpr (by decide)⟩

theorem set_drop_of_lt {α : Type} :
    ∀ (l : List α) (i j : Nat) (x : α), i < j → (l.set i x).drop j = l.drop j := by
  intro l
  induction l with
  | nil => intro i j x _; rfl
  | cons a t ih =>
    intro i j x hij
    cases i with
    | zero =>
      cases j with
      | zero => omega
      | succ k =>
        show (x :: t).drop (k + 1) = (a :: t).drop (k + 1)
        simp [List.drop_succ_cons]
    | succ m =>
      cases j with
      | zero => omega
      | succ k =>
        show (a :: t.set m x).drop (k + 1) = (a :: t).drop (k + 1)
        simp only [List.drop_succ_cons]
        exact ih m k x (by omega)

theorem eraseIdx_succ_drop {α : Type} :
    ∀ (l : List α) (i : Nat) (h : i + 1 < l.length),
      (l.eraseIdx (i + 1)).drop i
        = l.get ⟨i, by omega⟩ :: l.drop (i + 2) := by
  intro l
  induction l with
  | nil => intro i h; simp at h
  | cons a t ih =>
    intro i h
    cases i with
    | zero =>
      show a :: t.eraseIdx 0 = a :: (a :: t).drop 2
      cases t with
      | nil => simp at h
      | cons b u => rfl
    | succ j =>
      show (a :: t.eraseIdx (j + 1)).drop (j + 1) = _
      simp only [List.drop_succ_cons]
      rw [ih j (by simpa using h)]
      rfl

theorem replaceOp_length (ops : List Operation) (i : Nat) (operation next : Operation) :
    (replaceOp ops i operation next).length = ops.length := by
  cases operation <;> simp [replaceOp, List.length_set]

theorem replaceOp_drop_of_lt (ops : List Operation) (i j : Nat)
    (operation next : Operation) (hij : i < j) :
    (replaceOp ops i operation next).drop j = ops.drop j := by
  cases operation <;>
    simp [replaceOp, set_drop_of_lt ops i j _ hij]

theorem evalStep_progress : ∀ st st' : EvalState,
    evalStep st = some st' → evalMeasure st' < evalMeasure st := by
  intro st st' h
  unfold evalStep at h
  split at h
  case isTrue hi =>
    split at h
    case isTrue hi2 =>
      split at h
      case isTrue hmd =>
        injection h with h2
        subst h2
        unfold evalMeasure
        simp only []
        rw [List.length_eraseIdx_of_lt (by rw [replaceOp_length]; exact hi2),
          replaceOp_length]
        omega
      case isFalse hmd =>
        injection h with h2
        subst h2
        unfold evalMeasure
        simp only []
        omega
    case isFalse hi2 =>
      injection h with h2
      subst h2
      unfold evalMeasure
      simp only []
      omega
  case isFalse hi => exact Option.noConfusion h

theorem evalStep_none_of_ge {st : EvalState} (h : ¬ st.i < st.ops.length) :
    evalStep st = none := by
  unfold evalStep
  rw [dif_neg h]

theorem evalStep_ge_of_none {st : EvalState} (h : evalStep st = none) :
    ¬ st.i < st.ops.length := by
  intro hi
  unfold evalStep at h
  rw [dif_pos hi] at h
  split at h
  · split at h <;> simp at h
  · simp at h

theorem evalStep_evalList (st st' : EvalState) (h : evalStep st = some st') :
    evalList st.result (st.ops.drop st.i) = evalList st'.result (st'.ops.drop st'.i) := by
  unfold evalStep at h
  split at h
  case isFalse hi => exact Option.noConfusion h
  case isTrue hi =>
    split at h
    case isTrue hi2 =>
      split at h
      case isTrue hmd =>
        injection h with h2
        subst h2
        simp only []
        rw [List.drop_eq_get_cons hi, List.drop_eq_get_cons hi2]
        rw [eraseIdx_succ_drop _ st.i (by rw [replaceOp_length]; exact hi2)]
        show evalGo st.result (st.ops.get ⟨st.i, hi⟩)
          (st.ops.get ⟨st.i + 1, hi2⟩ :: st.ops.drop (st.i + 2)) = _
        rw [show (st.ops.drop (st.i + 1 + 1)) = st.ops.drop (st.i + 2) from rfl]
        unfold evalGo
        rw [if_pos hmd]
        cases hop : st.ops.get ⟨st.i, hi⟩ with
        | Add num =>
          show evalGo st.result
            (Operation.Add ((st.ops.get ⟨st.i + 1, hi2⟩).operate_with num)) (st.ops.drop (st.i + 2)) = _
          have hget : (replaceOp st.ops st.i (Operation.Add num)
              (st.ops.get ⟨st.i + 1, hi2⟩)).get ⟨st.i, by rw [replaceOp_length]; exact hi⟩
              = Operation.Add ((st.ops.get ⟨st.i + 1, hi2⟩).operate_with num) := by
            simp [replaceOp, List.get_set_eq]
          have hdrop : (replaceOp st.ops st.i (Operation.Add num)
              (st.ops.get ⟨st.i + 1, hi2⟩)).drop (st.i + 2) = st.ops.drop (st.i + 2) :=
            replaceOp_drop_of_lt _ _ _ _ _ (by omega)
          rw [hget, hdrop]
          rfl
        | Subtract num =>
          show evalGo st.result
            (Operation.Subtract ((st.ops.get ⟨st.i + 1, hi2⟩).operate_with num)) (st.ops.drop (st.i + 2)) = _
          have hget : (replaceOp st.ops st.i (Operation.Subtract num)
              (st.ops.get ⟨st.i + 1, hi2⟩)).get ⟨st.i, by rw [replaceOp_length]; exact hi⟩
              = Operation.Subtract ((st.ops.get ⟨st.i + 1, hi2⟩).operate_with num) := by
            simp [replaceOp, List.get_set_eq]
          have hdrop : (replaceOp st.ops st.i (Operation.Subtract num)
              (st.ops.get ⟨st.i + 1, hi2⟩)).drop (st.i + 2) = st.ops.drop (st.i + 2) :=
            replaceOp_drop_of_lt _ _ _ _ _ (by omega)
          rw [hget, hdrop]
          rfl
        | Multiply num =>
          show evalGo st.result (Operation.Multiply num) (st.ops.drop (st.i + 2)) = _
          have hget : (replaceOp st.ops st.i (Operation.Multiply num)
              (st.ops.get ⟨st.i + 1, hi2⟩)).get ⟨st.i, by rw [replaceOp_length]; exact hi⟩
              = Operation.Multiply num := hop
          have hdrop : (replaceOp st.ops st.i (Operation.Multiply num)
              (st.ops.get ⟨st.i + 1, hi2⟩)).drop (st.i + 2) = st.ops.drop (st.i + 2) :=
            replaceOp_drop_of_lt _ _ _ _ _ (by omega)
          rw [hget, hdrop]
          rfl
        | Divide num =>
          show evalGo st.result (Operation.Divide num) (st.ops.drop (st.i + 2)) = _
          have hget : (replaceOp st.ops st.i (Operation.Divide num)
              (st.ops.get ⟨st.i + 1, hi2⟩)).get ⟨st.i, by rw [replaceOp_length]; exact hi⟩
              = Operation.Divide num := hop
          have hdrop : (replaceOp st.ops st.i (Operation.Divide num)
              (st.ops.get ⟨st.i + 1, hi2⟩)).drop (st.i + 2) = st.ops.drop (st.i + 2) :=
            replaceOp_drop_of_lt _ _ _ _ _ (by omega)
          rw [hget, hdrop]
          rfl
      case isFalse hmd =>
        injection h with h2
        subst h2
        simp only []
        rw [List.drop_eq_get_cons hi, List.drop_eq_get_cons hi2]
        show evalGo st.result (st.ops.get ⟨st.i, hi⟩)
          (st.ops.get ⟨st.i + 1, hi2⟩ :: st.ops.drop (st.i + 1 + 1)) = _
        unfold evalGo
        rw [if_neg hmd]
        rfl
    case isFalse hi2 =>
      injection h with h2
      subst h2
      simp only []
      rw [List.drop_eq_get_cons hi]
      rw [List.drop_eq_nil_of_le (show st.ops.length ≤ st.i + 1 by omega)]
      rfl

theorem runEval_spec : ∀ (fuel : Nat) (st : EvalState), evalMeasure st ≤ fuel →
    evalStep (runEval fuel st) = none
    ∧ (runEval fuel st).result = evalList st.result (st.ops.drop st.i) := by
  intro fuel
  induction fuel with
  | zero =>
    intro st hm
    have hge : ¬ st.i < st.ops.length := by
      intro hi
      unfold evalMeasure at hm
      omega
    refine ⟨evalStep_none_of_ge hge, ?_⟩
    rw [List.drop_eq_nil_of_le (show st.ops.length ≤ st.i by omega)]
    rfl
  | succ f ih =>
    intro st hm
    cases hstep : evalStep st with
    | none =>
      have hge := evalStep_ge_of_none hstep
      simp only [runEval, hstep]
      refine ⟨trivial, ?_⟩
      rw [List.drop_eq_nil_of_le (show st.ops.length ≤ st.i by omega)]
      rfl
    | some st2 =>
      have hprog := evalStep_progress st st2 hstep
      have hm2 : evalMeasure st2 ≤ f := by omega
      have ih2 := ih st2 hm2
      simp only [runEval, hstep]
      refine ⟨ih2.1, ?_⟩
      rw [ih2.2, ← evalStep_evalList st st2 hstep]

/-- C9: for every term sequence (parser-produced or not), the evaluate loop
terminates and returns a value: each step either removes one term or
advances the index (the measure strictly decreases), and running the loop
from the initial state exhausts it within `2 * length` steps, ending with
the guard false and the result `Expression.evaluate` computes. -/
theorem C9_evaluator_terminates :
    (∀ st st' : EvalState, evalStep st = some st' → evalMeasure st' < evalMeasure st)
    ∧ (∀ ops : List Operation,
        evalStep (runEval (2 * ops.length) ⟨0, 0, ops⟩) = none
        ∧ (runEval (2 * ops.length) ⟨0, 0, ops⟩).result = Expression.evaluate ⟨ops⟩) := by
  refine ⟨evalStep_progress, ?_⟩
  intro ops
  have h := runEval_spec (2 * ops.length) ⟨0, 0, ops⟩
    (show 2 * ops.length - 0 ≤ 2 * ops.length by omega)
  refine ⟨h.1, ?_⟩
  rw [h.2]
  show evalList 0 (ops.drop 0) = _
  rw [List.drop_zero]
  exact evalList_zero ops

/-- C9 witness: one concrete step of the loop on `[Add 1]` strictly
decreases the measure, and the loop run on `[Add 1]` terminates with the
evaluator's result. -/
theorem C9_evaluator_terminates_witness :
    evalStep ⟨0, 0, [Operation.Add 1]⟩ = some ⟨1, 1, [Operation.Add 1]⟩
    ∧ evalMeasure ⟨1, 1, [Operation.Add 1]⟩ < evalMeasure ⟨0, 0, [Operation.Add 1]⟩
    ∧ evalStep (runEval (2 * [Operation.Add 1].length) ⟨0, 0, [Operation.Add 1]⟩) = none
    ∧ (runEval (2 * [Operation.Add 1].length) ⟨0, 0, [Operation.Add 1]⟩).result
      = Expression.evaluate ⟨[Operation.Add 1]⟩ :=
  ⟨by with_unfolding_all decide,
    C9_evaluator_terminates.1 ⟨0, 0, [Operation.Add 1]⟩ ⟨1, 1, [Operation.Add 1]⟩
      (by with_unfolding_all decide),
    (C9_evaluator_terminates.2 [Operation.Add 1]).1,
    (C9_evaluator_terminates.2 [Operation.Add 1]).2⟩
